import Mathlib

/-!
# Verification of the `sha256rng` byte-stream generator

Shallow embedding of `src/sha256rng.c`: a pseudo-random byte-stream
generator that seeds a growable byte pool with the digests of its
command-line arguments (or one digest of the empty pool when there are
none) and then streams bytes from the pool, extending it by hashing the
current pool contents whenever fewer than one digest of unread bytes
remain, and compacting it once the read cursor passes half the capacity.

The digest function (OpenSSL `SHA256`) is treated as an opaque
deterministic oracle `g : List Nat → List Nat`; the code only relies on
its output having the fixed length `SHA256_DIGEST_LENGTH = 32`.

`size_t` values are modelled as `Nat` below `SIZE_MAX = 2^64 - 1`;
subtractions that the C source performs on `size_t` are modelled by the
wrapping subtraction `wsub`, and the one addition whose wrap-around the
source guards against (`pool_size + min_sz`) is taken modulo `2^64`.
-/

set_option autoImplicit false

namespace Sha256Rng

/-- Number of values of `size_t`: `2^64` on the 64-bit platform assumed
by the source's use of `SIZE_MAX`. -/
def W : Nat := 2 ^ 64

/-- `SIZE_MAX`. -/
def SIZE_MAX : Nat := W - 1

/-- `static const size_t min_sz = SHA256_DIGEST_LENGTH;` -/
def min_sz : Nat := 32

/-- Wrapping `size_t` subtraction `a - b` (both operands below `W`). -/
def wsub (a b : Nat) : Nat := (a + W - b) % W

/-- The digest oracle: an arbitrary deterministic map from byte
sequences to byte sequences (instantiated by `SHA256` in the source). -/
abbrev Oracle := List Nat → List Nat

/-- The oracle produces digests of the fixed length `min_sz`, as
`SHA256` does. -/
def DigestLen (g : Oracle) : Prop := ∀ xs, (g xs).length = min_sz

/-- The global pool state: the bytes of the allocation (`mem i` is the
byte at offset `i`; offsets at or beyond `size` are garbage that the
program never reads), together with `pool_size`, `pool_use` and
`pool_cursor`. -/
structure PoolState where
  mem : Nat → Nat
  size : Nat
  use : Nat
  cursor : Nat

/-- The initial state: `pool = NULL`, all three counters zero.  The
memory function is arbitrary (no byte below `use = 0` is ever read
before being written); we pick the all-zero function. -/
def initState : PoolState := ⟨fun _ => 0, 0, 0, 0⟩

/-- The loop `while (increment < pool_size && SIZE_MAX - increment <
pool_size) increment *= 2;` of `prepare_pool`, with explicit fuel.  The
loop always terminates within 64 iterations: doubling modulo `2^64`
either reaches a value `≥ pool_size` or reaches `0`, and `0` falsifies
the second conjunct because `pool_size ≤ SIZE_MAX`. -/
def growLoop (pool_size : Nat) : Nat → Nat → Nat
  | 0, increment => increment
  | fuel + 1, increment =>
    if increment < pool_size ∧ SIZE_MAX - increment < pool_size then
      growLoop pool_size fuel ((increment * 2) % W)
    else
      increment

/-- `size_t increment = pool_size ? min_sz : min_sz*min_sz;` followed by
the doubling loop.  The computed value is never used by the source: the
reallocation request is `pool_size + min_sz` regardless. -/
def growth_increment (pool_size : Nat) : Nat :=
  growLoop pool_size 64 (if pool_size ≠ 0 then min_sz else min_sz * min_sz)

/-- `prepare_pool`: make sure the pool has room for at least another
digest.  `none` models the `abort()` on the pre-allocation overflow
check (the `realloc` itself is assumed to succeed: allocation failure is
a matter of the environment, not of the state). -/
def prepare_pool (s : PoolState) : Option PoolState :=
  if min_sz < wsub s.size s.use then
    some s
  else if s.size > SIZE_MAX - min_sz then
    none
  else
    let _increment := growth_increment s.size
    some { s with size := (s.size + min_sz) % W }

/-- Write the byte list `bs` into memory `m` starting at offset `pos`
(the effect of `SHA256(..., ..., pool + pos)` or of `memcpy`). -/
def writeBytes (m : Nat → Nat) (pos : Nat) (bs : List Nat) : Nat → Nat :=
  fun i => if pos ≤ i ∧ i - pos < bs.length then bs.getD (i - pos) 0 else m i

/-- The byte sequence `pool[0 .. pool_use)`, the input of the digest in
`repool`. -/
def digestInput (s : PoolState) : List Nat :=
  (List.range s.use).map s.mem

/-- `repool`: add the digest of the current pool contents to the pool
itself. `SHA256(pool, pool_use, pool + pool_use); pool_use += min_sz;` -/
def repool (g : Oracle) (s : PoolState) : Option PoolState :=
  (prepare_pool s).map fun t =>
    { t with
      mem := writeBytes t.mem t.use (g (digestInput t))
      use := t.use + min_sz }

/-- `pool_str`: append the digest of one seed string (its bytes given as
`arg`) to the pool. -/
def pool_str (g : Oracle) (s : PoolState) (arg : List Nat) : Option PoolState :=
  (prepare_pool s).map fun t =>
    { t with
      mem := writeBytes t.mem t.use (g arg)
      use := t.use + min_sz }

/-- `shift_pool`: `memcpy(pool, pool + pool_cursor, pool_size -
pool_cursor); pool_use -= pool_cursor; pool_cursor = 0;`. -/
def shift_pool (s : PoolState) : PoolState :=
  { s with
    mem := fun i => if i < wsub s.size s.cursor then s.mem (i + s.cursor) else s.mem i
    use := wsub s.use s.cursor
    cursor := 0 }

/-- The unconditional tail of `consume`: emit `pool[pool_cursor++]`,
then shift the pool if the cursor has passed half the capacity. -/
def consumeRead (s : PoolState) : Nat × PoolState :=
  let b := s.mem s.cursor
  let t : PoolState := { s with cursor := s.cursor + 1 }
  (b, if t.cursor > t.size / 2 then shift_pool t else t)

/-- `consume`: produce one byte from the pool, repooling first when
fewer than `min_sz` unread bytes remain. -/
def consume (g : Oracle) (s : PoolState) : Option (Nat × PoolState) :=
  if wsub s.use s.cursor < min_sz then
    (repool g s).map consumeRead
  else
    some (consumeRead s)

/-- Seed ingestion loop of `main`: `while (--argc) pool_str(*(++argv));`. -/
def seedAll (g : Oracle) : PoolState → List (List Nat) → Option PoolState
  | s, [] => some s
  | s, a :: rest => (pool_str g s a).bind fun t => seedAll g t rest

/-- The state after the seeding phase of `main`: one unconditional
`repool()` when `argc == 1`, otherwise one `pool_str` per argument in
order. -/
def seedState (g : Oracle) (seeds : List (List Nat)) : Option PoolState :=
  match seeds with
  | [] => repool g initState
  | _ :: _ => seedAll g initState seeds

/-- Run `n` iterations of the `while (limit--) consume();` loop,
collecting the emitted bytes; `none` models an `abort()` during one of
the calls. -/
def runN (g : Oracle) : Nat → PoolState → Option (List Nat × PoolState)
  | 0, s => some ([], s)
  | n + 1, s =>
    (consume g s).bind fun bs =>
      (runN g n bs.2).map fun os => (bs.1 :: os.1, os.2)

/-- The byte stream of a whole run: seed from `seeds`, then emit `n`
bytes. -/
def outBytes (g : Oracle) (seeds : List (List Nat)) (n : Nat) : Option (List Nat) :=
  (seedState g seeds).bind fun s => (runN g n s).map Prod.fst

/-- The pool state after seeding from `seeds` and emitting `n` bytes. -/
def stateAfter (g : Oracle) (seeds : List (List Nat)) (n : Nat) : Option PoolState :=
  (seedState g seeds).bind fun s => (runN g n s).map Prod.snd

/-- The pool invariant `0 <= cursor <= used <= capacity`, together with
the `size_t` representability bound on the capacity (a typing fact in
the C source). -/
def Inv (s : PoolState) : Prop :=
  s.cursor ≤ s.use ∧ s.use ≤ s.size ∧ s.size ≤ SIZE_MAX

/-- Ghost refinement invariant tying a concrete pool state to the full
append history `hist` (every byte ever appended to the pool, in order)
and the offset `off` (number of bytes discarded by compactions so far):
the live pool window `[0, use)` is exactly `hist[off .. off + use)`. -/
def GInv (s : PoolState) (hist : List Nat) (off : Nat) : Prop :=
  (∀ i, i < s.use → s.mem i = hist.getD (off + i) 0) ∧
  off + s.use = hist.length ∧ Inv s

/-- The bytes appended to the pool by the seeding phase: the digest of
the empty sequence when there are no seeds, otherwise the concatenation
of the seeds' digests in order. -/
def seedHist (g : Oracle) (seeds : List (List Nat)) : List Nat :=
  match seeds with
  | [] => g []
  | _ :: _ => (seeds.map g).flatten

/-- A run of the streaming loop as a relation: `Emits g s out` holds
when the generator, started in state `s`, can emit the byte sequence
`out` through successive `consume` calls. -/
inductive Emits (g : Oracle) : PoolState → List Nat → Prop
  | nil (s : PoolState) : Emits g s []
  | cons (s : PoolState) (b : Nat) (s' : PoolState) (out : List Nat) :
      consume g s = some (b, s') → Emits g s' out → Emits g s (b :: out)

/-- Modelled from the spec: the reference generator of the claim about
compaction-insensitivity, "a pool pre-sized larger than ever needed and
never compacting".  With such a pool neither growth nor compaction ever
triggers, so the state is just the appended bytes `hist` and the read
cursor; extension digests the whole history. -/
def refStep (g : Oracle) (r : List Nat × Nat) : Nat × (List Nat × Nat) :=
  let r := if r.1.length - r.2 < min_sz then (r.1 ++ g r.1, r.2) else r
  (r.1.getD r.2 0, (r.1, r.2 + 1))

/-- Modelled from the spec: `n` bytes of the reference generator. -/
def refRun (g : Oracle) : Nat → (List Nat × Nat) → List Nat
  | 0, _ => []
  | n + 1, r =>
    let br := refStep g r
    br.1 :: refRun g n br.2

/-- Modelled from the spec: the reference generator's byte stream for a
given seed list (its pool starts with the seed digests, or the digest of
the empty sequence when there are no seeds). -/
def refBytes (g : Oracle) (seeds : List (List Nat)) (n : Nat) : List Nat :=
  refRun g n (seedHist g seeds, 0)

/-- A concrete oracle used for witnesses: every digest is `min_sz` zero
bytes. -/
def g0 : Oracle := fun _ => List.replicate min_sz 0

/-- A concrete oracle used for the compaction counterexample: the digest
bytes record the length of the digested sequence, so digests of inputs
of different lengths differ. -/
def gcx : Oracle := fun xs => (List.range min_sz).map (fun i => (i + xs.length) % 256)

/-- The concrete pool state after the seedless seeding phase under `g0`:
one digest of the empty sequence in the pool. -/
def s0 : PoolState :=
  { mem := writeBytes (fun _ => 0) 0 (List.replicate min_sz 0)
    size := min_sz
    use := min_sz
    cursor := 0 }

/-! ## Basic arithmetic facts -/

lemma min_sz_eq : min_sz = 32 := rfl

lemma SIZE_MAX_succ : SIZE_MAX + 1 = W := by decide

lemma min_sz_sq_le_SIZE_MAX : min_sz * min_sz ≤ SIZE_MAX := by decide

lemma wsub_eq {a b : Nat} (hba : b ≤ a) (ha : a < W) : wsub a b = a - b := by
  unfold wsub
  have h1 : a + W - b = (a - b) + W := by omega
  rw [h1, Nat.add_mod_right]
  exact Nat.mod_eq_of_lt (by omega)

/-! ## `prepare_pool` -/

/-- Exact description of a successful `prepare_pool` under the pool
invariant: fields other than the capacity are untouched, the capacity
grows by exactly `min_sz` when the unread-room test fails, and on return
there is room for a full digest. -/
lemma prepare_pool_spec {s t : PoolState} (hs : Inv s) (h : prepare_pool s = some t) :
    t.mem = s.mem ∧ t.use = s.use ∧ t.cursor = s.cursor ∧
    (t.size = s.size ∨ t.size = s.size + min_sz) ∧
    t.use + min_sz ≤ t.size ∧ Inv t := by
  obtain ⟨h1, h2, h3⟩ := hs
  have hW : W = 18446744073709551616 := by decide
  have hS : SIZE_MAX = 18446744073709551615 := by decide
  have hm : min_sz = 32 := rfl
  unfold prepare_pool at h
  split at h
  case isTrue hroom =>
    cases h
    rw [wsub_eq h2 (by omega)] at hroom
    exact ⟨rfl, rfl, rfl, Or.inl rfl, by omega, h1, h2, h3⟩
  case isFalse hroom =>
    split at h
    case isTrue => exact absurd h (by simp)
    case isFalse hof =>
      cases h
      have hl : (s.size + min_sz) % W = s.size + min_sz :=
        Nat.mod_eq_of_lt (by omega)
      refine ⟨rfl, rfl, rfl, Or.inr hl, ?_, ?_, ?_, ?_⟩ <;> simp only [hl] <;> omega

/-- `prepare_pool` fails only on the pre-allocation overflow check. -/
lemma prepare_pool_isSome {s : PoolState} (hof : s.size ≤ SIZE_MAX - min_sz) :
    ∃ t, prepare_pool s = some t ∧ t.size ≤ s.size + min_sz := by
  have hW : W = 18446744073709551616 := by decide
  have hS : SIZE_MAX = 18446744073709551615 := by decide
  have hm : min_sz = 32 := rfl
  unfold prepare_pool
  split
  · exact ⟨s, rfl, by omega⟩
  · rw [if_neg (by omega)]
    exact ⟨_, rfl, by simp only; rw [Nat.mod_eq_of_lt (by omega)]⟩

/-! ## List helpers -/

lemma getD_drop (l : List Nat) (i j : Nat) : (l.drop i).getD j 0 = l.getD (i + j) 0 := by
  simp [List.getD_eq_getElem?_getD, List.getElem?_drop]

lemma getD_range_map {n k : Nat} (f : Nat → Nat) (h : k < n) :
    ((List.range n).map f).getD k 0 = f k := by
  simp [List.getD_eq_getElem?_getD, List.getElem?_map, List.getElem?_range h]

lemma range_map_getD {l : List Nat} {n : Nat} (h : l.length = n) :
    (List.range n).map (fun k => l.getD k 0) = l := by
  apply List.ext_getElem
  · simp [h]
  · intro i h1 h2
    simp [List.getD_eq_getElem?_getD, List.getElem?_eq_getElem h2]

/-! ## `writeBytes` -/

lemma writeBytes_lo {m : Nat → Nat} {pos : Nat} {bs : List Nat} {i : Nat} (h : i < pos) :
    writeBytes m pos bs i = m i := by
  unfold writeBytes
  rw [if_neg (by omega)]

lemma writeBytes_mid {m : Nat → Nat} {pos : Nat} {bs : List Nat} {i : Nat}
    (h1 : pos ≤ i) (h2 : i - pos < bs.length) :
    writeBytes m pos bs i = bs.getD (i - pos) 0 := by
  unfold writeBytes
  rw [if_pos ⟨h1, h2⟩]

/-! ## Ghost simulation: the append history

`GInv s hist off` says the live pool window is the slice
`hist[off .. off + use)` of the history of all appended bytes.  Each
operation preserves it, with `hist` growing exactly by the appended
digest and `off` growing exactly at compactions. -/

lemma digestInput_eq_drop {s : PoolState} {hist : List Nat} {off : Nat}
    (hG : GInv s hist off) : digestInput s = hist.drop off := by
  obtain ⟨hmem, hlen, _⟩ := hG
  unfold digestInput
  have h1 : (List.range s.use).map s.mem
      = (List.range s.use).map (fun i => (hist.drop off).getD i 0) := by
    apply List.map_congr_left
    intro a ha
    rw [hmem a (List.mem_range.mp ha), getD_drop]
  rw [h1, range_map_getD (by simp [List.length_drop]; omega)]

lemma prepare_pool_ghost {s u : PoolState} {hist : List Nat} {off : Nat}
    (hG : GInv s hist off) (hp : prepare_pool s = some u) :
    GInv u hist off ∧ u.mem = s.mem ∧ u.use = s.use ∧ u.cursor = s.cursor ∧
    u.use + min_sz ≤ u.size ∧ u.size ≤ s.size + min_sz := by
  obtain ⟨hmem, hlen, hinv⟩ := hG
  obtain ⟨m1, m2, m3, m4, m5, m6⟩ := prepare_pool_spec hinv hp
  refine ⟨⟨?_, ?_, m6⟩, m1, m2, m3, m5, by omega⟩
  · intro i hi
    rw [m1]
    exact hmem i (by omega)
  · omega

/-- Appending one digest-worth of bytes `bs` at `use` (the common tail
of `repool` and `pool_str`) extends the history by `bs`. -/
lemma append_ghost {s : PoolState} {hist : List Nat} {off : Nat} {bs : List Nat}
    (hG : GInv s hist off) (hroom : s.use + min_sz ≤ s.size) (hlen : bs.length = min_sz) :
    GInv { s with mem := writeBytes s.mem s.use bs, use := s.use + min_sz }
      (hist ++ bs) off := by
  obtain ⟨hmem, hl, h1, h2, h3⟩ := hG
  refine ⟨?_, ?_, ?_, ?_, h3⟩
  · intro i hi
    have hi' : i < s.use + min_sz := hi
    show writeBytes s.mem s.use bs i = (hist ++ bs).getD (off + i) 0
    rcases Nat.lt_or_ge i s.use with hc | hc
    · rw [writeBytes_lo hc, hmem i hc, List.getD_append _ _ _ _ (by omega)]
    · rw [writeBytes_mid hc (by omega), List.getD_append_right _ _ _ _ (by omega)]
      congr 1
      omega
  · show off + (s.use + min_sz) = (hist ++ bs).length
    rw [List.length_append]
    omega
  · show s.cursor ≤ s.use + min_sz
    omega
  · show s.use + min_sz ≤ s.size
    omega

lemma repool_ghost {g : Oracle} {s t : PoolState} {hist : List Nat} {off : Nat}
    (hg : DigestLen g) (hG : GInv s hist off) (h : repool g s = some t) :
    GInv t (hist ++ g (hist.drop off)) off ∧ t.cursor = s.cursor ∧
    t.use = s.use + min_sz ∧ t.size ≤ s.size + min_sz := by
  unfold repool at h
  cases hp : prepare_pool s with
  | none => rw [hp] at h; cases h
  | some u =>
    rw [hp] at h
    obtain ⟨hGu, hmem, huse, hcur, hroom, hsz⟩ := prepare_pool_ghost hG hp
    have hdi : digestInput u = hist.drop off := digestInput_eq_drop hGu
    have ht : t =
        { u with
          mem := writeBytes u.mem u.use (g (digestInput u))
          use := u.use + min_sz } := by
      simp only [Option.map_some', Option.some.injEq] at h
      exact h.symm
    rw [hdi] at ht
    subst ht
    refine ⟨append_ghost hGu hroom (hg _), hcur, ?_, ?_⟩
    · show u.use + min_sz = s.use + min_sz
      omega
    · show u.size ≤ s.size + min_sz
      omega

lemma pool_str_ghost {g : Oracle} {s t : PoolState} {hist : List Nat} {off : Nat}
    {arg : List Nat}
    (hg : DigestLen g) (hG : GInv s hist off) (h : pool_str g s arg = some t) :
    GInv t (hist ++ g arg) off ∧ t.cursor = s.cursor ∧
    t.use = s.use + min_sz ∧ t.size ≤ s.size + min_sz := by
  unfold pool_str at h
  cases hp : prepare_pool s with
  | none => rw [hp] at h; cases h
  | some u =>
    rw [hp] at h
    obtain ⟨hGu, hmem, huse, hcur, hroom, hsz⟩ := prepare_pool_ghost hG hp
    have ht : t =
        { u with
          mem := writeBytes u.mem u.use (g arg)
          use := u.use + min_sz } := by
      simp only [Option.map_some', Option.some.injEq] at h
      exact h.symm
    subst ht
    refine ⟨append_ghost hGu hroom (hg arg), hcur, ?_, ?_⟩
    · show u.use + min_sz = s.use + min_sz
      omega
    · show u.size ≤ s.size + min_sz
      omega

lemma shift_pool_ghost {s : PoolState} {hist : List Nat} {off : Nat}
    (hG : GInv s hist off) :
    GInv (shift_pool s) hist (off + s.cursor) := by
  obtain ⟨hmem, hl, h1, h2, h3⟩ := hG
  have hW : W = 18446744073709551616 := by decide
  have hS : SIZE_MAX = 18446744073709551615 := by decide
  have hu : wsub s.use s.cursor = s.use - s.cursor := wsub_eq h1 (by omega)
  have hz : wsub s.size s.cursor = s.size - s.cursor := wsub_eq (by omega) (by omega)
  unfold shift_pool
  refine ⟨?_, ?_, ?_, ?_, h3⟩
  · intro i hi
    simp only [hu] at hi
    simp only [hz, if_pos (show i < s.size - s.cursor by omega)]
    rw [hmem (i + s.cursor) (by omega)]
    congr 1
    omega
  · simp only [hu]
    omega
  · simp only [hu]
    omega
  · simp only [hu]
    omega

lemma consumeRead_ghost {s : PoolState} {hist : List Nat} {off : Nat}
    (hG : GInv s hist off) (hlt : s.cursor < s.use) :
    (consumeRead s).1 = hist.getD (off + s.cursor) 0 ∧
    ∃ off2, GInv (consumeRead s).2 hist off2 ∧
      off2 + (consumeRead s).2.cursor = off + s.cursor + 1 ∧
      (consumeRead s).2.size = s.size := by
  obtain ⟨hmem, hl, h1, h2, h3⟩ := hG
  constructor
  · show s.mem s.cursor = hist.getD (off + s.cursor) 0
    exact hmem _ hlt
  · have hGt : GInv { s with cursor := s.cursor + 1 } hist off := by
      refine ⟨?_, ?_, ?_, ?_, ?_⟩
      · intro i hi
        exact hmem i hi
      · exact hl
      · show s.cursor + 1 ≤ s.use
        omega
      · exact h2
      · exact h3
    have hcr : (consumeRead s).2 =
        if s.cursor + 1 > s.size / 2
        then shift_pool { s with cursor := s.cursor + 1 }
        else { s with cursor := s.cursor + 1 } := rfl
    by_cases hc : s.cursor + 1 > s.size / 2
    · refine ⟨off + (s.cursor + 1), ?_, ?_, ?_⟩
      · rw [hcr, if_pos hc]
        exact shift_pool_ghost hGt
      · rw [hcr, if_pos hc]
        show off + (s.cursor + 1) + 0 = off + s.cursor + 1
        omega
      · rw [hcr, if_pos hc]
        exact rfl
    · refine ⟨off, ?_, ?_, ?_⟩
      · rw [hcr, if_neg hc]
        exact hGt
      · rw [hcr, if_neg hc]
        show off + (s.cursor + 1) = off + s.cursor + 1
        omega
      · rw [hcr, if_neg hc]

/-- One `consume` call, ghost view: the history grows (by nothing, or by
one digest of the pre-extension pool contents), and the emitted byte is
the history byte at the absolute position `off + cursor`, which then
advances by one. -/
lemma consume_ghost {g : Oracle} {s : PoolState} {hist : List Nat} {off b : Nat}
    {s' : PoolState}
    (hg : DigestLen g) (hG : GInv s hist off) (h : consume g s = some (b, s')) :
    ∃ hist2 off2, (∃ e, hist2 = hist ++ e) ∧ GInv s' hist2 off2 ∧
      off2 + s'.cursor = off + s.cursor + 1 ∧
      off + s.cursor < hist2.length ∧ b = hist2.getD (off + s.cursor) 0 ∧
      s'.size ≤ s.size + min_sz := by
  have hW : W = 18446744073709551616 := by decide
  obtain ⟨hmem, hl, h1, h2, h3⟩ := hG
  have hS : SIZE_MAX = 18446744073709551615 := by decide
  unfold consume at h
  split at h
  case isTrue hcond =>
    cases hr : repool g s with
    | none => rw [hr] at h; cases h
    | some t =>
      rw [hr] at h
      simp only [Option.map_some', Option.some.injEq] at h
      have hb2 : (consumeRead t).1 = b := by rw [h]
      have hs2 : (consumeRead t).2 = s' := by rw [h]
      obtain ⟨hGt, hcur, huse, hsz⟩ := repool_ghost hg ⟨hmem, hl, h1, h2, h3⟩ hr
      have hlt : t.cursor < t.use := by rw [hcur, huse]; omega
      obtain ⟨hb, off2, hG2, hoff, hsize⟩ := consumeRead_ghost hGt hlt
      have hglen : (g (hist.drop off)).length = min_sz := hg _
      refine ⟨hist ++ g (hist.drop off), off2, ⟨_, rfl⟩, ?_, ?_, ?_, ?_, ?_⟩
      · rw [← hs2]
        exact hG2
      · rw [← hs2, hoff, hcur]
      · rw [List.length_append]
        omega
      · rw [← hb2, hb, hcur]
      · rw [← hs2, hsize]
        exact hsz
  case isFalse hcond =>
    rw [wsub_eq h1 (by omega)] at hcond
    simp only [Option.some.injEq] at h
    have hb2 : (consumeRead s).1 = b := by rw [h]
    have hs2 : (consumeRead s).2 = s' := by rw [h]
    have hlt : s.cursor < s.use := by
      have hm : min_sz = 32 := rfl
      omega
    obtain ⟨hb, off2, hG2, hoff, hsize⟩ := consumeRead_ghost ⟨hmem, hl, h1, h2, h3⟩ hlt
    refine ⟨hist, off2, ⟨[], (List.append_nil hist).symm⟩, ?_, ?_, ?_, ?_, ?_⟩
    · rw [← hs2]
      exact hG2
    · rw [← hs2, hoff]
    · omega
    · rw [← hb2, hb]
    · rw [← hs2, hsize]
      omega

/-- `n` consume calls, ghost view: the emitted bytes are the bytes of
the final history at the `n` consecutive absolute positions starting at
`off + cursor`, in order. -/
lemma runN_ghost {g : Oracle} (hg : DigestLen g) (n : Nat) :
    ∀ (s : PoolState) (hist : List Nat) (off : Nat) (out : List Nat) (s' : PoolState),
      GInv s hist off → runN g n s = some (out, s') →
      ∃ hist2 off2, (∃ e, hist2 = hist ++ e) ∧ GInv s' hist2 off2 ∧
        off2 + s'.cursor = off + s.cursor + n ∧
        out = (List.range n).map (fun k => hist2.getD (off + s.cursor + k) 0) := by
  induction n with
  | zero =>
    intro s hist off out s' hG h
    simp only [runN, Option.some.injEq, Prod.mk.injEq] at h
    obtain ⟨h1, h2⟩ := h
    exact ⟨hist, off, ⟨[], (List.append_nil hist).symm⟩, h2 ▸ hG, by rw [← h2]; omega, by
      rw [← h1]; simp⟩
  | succ n ih =>
    intro s hist off out s' hG h
    rw [show runN g (n + 1) s =
        (consume g s).bind fun bs =>
          (runN g n bs.2).map fun os => (bs.1 :: os.1, os.2) from rfl] at h
    cases hc : consume g s with
    | none => rw [hc] at h; cases h
    | some bs =>
      rw [hc, Option.some_bind] at h
      obtain ⟨b, s1⟩ := bs
      cases hrn : runN g n s1 with
      | none => rw [hrn] at h; cases h
      | some os =>
        rw [hrn] at h
        simp only [Option.map_some', Option.some.injEq, Prod.mk.injEq] at h
        obtain ⟨hout, hs'⟩ := h
        obtain ⟨out1, s2⟩ := os
        obtain ⟨h2, off2, ⟨e2, he2⟩, hG2, hoff2, hltpos, hb, _⟩ := consume_ghost hg hG hc
        obtain ⟨hist3, off3, ⟨e3, he3⟩, hG3, hoff3, hout1⟩ := ih s1 h2 off2 out1 s2 hG2 hrn
        refine ⟨hist3, off3, ⟨e2 ++ e3, by rw [he3, he2, List.append_assoc]⟩, ?_, ?_, ?_⟩
        · rw [← hs']
          exact hG3
        · rw [← hs']
          show off3 + s2.cursor = off + s.cursor + (n + 1)
          omega
        · rw [← hout, List.range_succ_eq_map, List.map_cons, List.map_map]
          congr 1
          · show b = hist3.getD (off + s.cursor + 0) 0
            rw [Nat.add_zero, hb, he3, List.getD_append _ _ _ _ hltpos]
          · show out1 = List.map
                ((fun k => hist3.getD (off + s.cursor + k) 0) ∘ Nat.succ) (List.range n)
            rw [hout1]
            apply List.map_congr_left
            intro a ha
            show hist3.getD (off2 + s1.cursor + a) 0 = hist3.getD (off + s.cursor + (a + 1)) 0
            congr 1
            omega

lemma initState_ghost : GInv initState [] 0 :=
  ⟨fun i hi => absurd hi (Nat.not_lt_zero i), rfl,
   Nat.le_refl 0, Nat.le_refl 0, Nat.zero_le _⟩

/-- Any state satisfying the pool invariant is its own history: the live
window `[0, use)` read off the memory. -/
lemma GInv_of_Inv {s : PoolState} (hs : Inv s) : GInv s (digestInput s) 0 := by
  refine ⟨?_, ?_, hs⟩
  · intro i hi
    rw [Nat.zero_add, digestInput, getD_range_map _ hi]
  · simp [digestInput]

lemma seedAll_ghost {g : Oracle} (hg : DigestLen g) (seeds : List (List Nat)) :
    ∀ (s : PoolState) (hist : List Nat) (off : Nat) (t : PoolState),
      GInv s hist off → seedAll g s seeds = some t →
      GInv t (hist ++ (seeds.map g).flatten) off ∧ t.cursor = s.cursor := by
  induction seeds with
  | nil =>
    intro s hist off t hG h
    simp only [seedAll, Option.some.injEq] at h
    subst h
    simpa using hG
  | cons a rest ih =>
    intro s hist off t hG h
    simp only [seedAll] at h
    cases hp : pool_str g s a with
    | none => rw [hp] at h; cases h
    | some u =>
      rw [hp, Option.some_bind] at h
      obtain ⟨hGu, hcur, _, _⟩ := pool_str_ghost hg hG hp
      obtain ⟨hGt, hcurt⟩ := ih u (hist ++ g a) off t hGu h
      constructor
      · rw [List.map_cons, List.flatten_cons, ← List.append_assoc]
        exact hGt
      · rw [hcurt, hcur]

/-- The seeding phase establishes the ghost invariant with the seed
history and zero offset, and leaves the cursor at zero. -/
lemma seedState_ghost {g : Oracle} (hg : DigestLen g) {seeds : List (List Nat)}
    {s0 : PoolState} (h : seedState g seeds = some s0) :
    GInv s0 (seedHist g seeds) 0 ∧ s0.cursor = 0 := by
  cases seeds with
  | nil =>
    simp only [seedState] at h
    obtain ⟨hG, hcur, _, _⟩ := repool_ghost hg initState_ghost h
    constructor
    · simpa using hG
    · exact hcur
  | cons a rest =>
    simp only [seedState] at h
    obtain ⟨hG, hcur⟩ :=
      seedAll_ghost hg (a :: rest) initState [] 0 s0 initState_ghost h
    constructor
    · simpa using hG
    · exact hcur

/-- `consume` can only abort through the overflow check, which the size
bound rules out. -/
lemma consume_isSome {g : Oracle} {s : PoolState} {hist : List Nat} {off : Nat}
    ( _hG : GInv s hist off) (hsz : s.size + min_sz ≤ SIZE_MAX) :
    ∃ b s', consume g s = some (b, s') := by
  have hm : min_sz = 32 := rfl
  have hS : SIZE_MAX = 18446744073709551615 := by decide
  unfold consume
  split
  · unfold repool
    obtain ⟨u, hp, _⟩ := @prepare_pool_isSome s (by omega)
    rw [hp]
    exact ⟨_, _, rfl⟩
  · exact ⟨_, _, rfl⟩

/-- A run of `n` bytes completes whenever the starting capacity leaves
enough headroom below `SIZE_MAX` (each call grows the capacity by at
most one digest). -/
lemma runN_isSome {g : Oracle} (hg : DigestLen g) (n : Nat) :
    ∀ (s : PoolState) (hist : List Nat) (off : Nat), GInv s hist off →
      s.size + min_sz * (n + 1) ≤ SIZE_MAX →
      ∃ out s', runN g n s = some (out, s') := by
  induction n with
  | zero =>
    intro s hist off hG hsz
    exact ⟨[], s, rfl⟩
  | succ n ih =>
    intro s hist off hG hsz
    have hm : min_sz = 32 := rfl
    rw [hm] at hsz
    obtain ⟨b, s1, hc⟩ := consume_isSome hG (by rw [hm]; omega)
    obtain ⟨h2, off2, he, hG2, hoff, hlt, hb, hszb⟩ := consume_ghost hg hG hc
    rw [hm] at hszb
    obtain ⟨out, s', hr⟩ := ih s1 h2 off2 hG2 (by rw [hm]; omega)
    refine ⟨b :: out, s', ?_⟩
    rw [show runN g (n + 1) s =
        (consume g s).bind fun bs =>
          (runN g n bs.2).map fun os => (bs.1 :: os.1, os.2) from rfl,
      hc, Option.some_bind, hr]
    rfl

/-! ## Counter-level facts (no assumption on the digest's length) -/

lemma repool_inv {g : Oracle} {s t : PoolState} (hs : Inv s) (h : repool g s = some t) :
    Inv t ∧ t.use = s.use + min_sz ∧ t.cursor = s.cursor ∧ t.size ≤ s.size + min_sz := by
  unfold repool at h
  cases hp : prepare_pool s with
  | none => rw [hp] at h; cases h
  | some u =>
    rw [hp] at h
    simp only [Option.map_some', Option.some.injEq] at h
    obtain ⟨m1, m2, m3, m4, m5, i1, i2, i3⟩ := prepare_pool_spec hs hp
    obtain ⟨hc, hu, hz⟩ : t.cursor = u.cursor ∧ t.use = u.use + min_sz ∧ t.size = u.size := by
      rw [← h]
      exact ⟨rfl, rfl, rfl⟩
    obtain ⟨j1, j2, j3⟩ := hs
    refine ⟨⟨?_, ?_, ?_⟩, ?_, ?_, ?_⟩ <;> omega

lemma pool_str_inv {g : Oracle} {s t : PoolState} {arg : List Nat}
    (hs : Inv s) (h : pool_str g s arg = some t) :
    Inv t ∧ t.use = s.use + min_sz ∧ t.cursor = s.cursor ∧ t.size ≤ s.size + min_sz := by
  unfold pool_str at h
  cases hp : prepare_pool s with
  | none => rw [hp] at h; cases h
  | some u =>
    rw [hp] at h
    simp only [Option.map_some', Option.some.injEq] at h
    obtain ⟨m1, m2, m3, m4, m5, i1, i2, i3⟩ := prepare_pool_spec hs hp
    obtain ⟨hc, hu, hz⟩ : t.cursor = u.cursor ∧ t.use = u.use + min_sz ∧ t.size = u.size := by
      rw [← h]
      exact ⟨rfl, rfl, rfl⟩
    obtain ⟨j1, j2, j3⟩ := hs
    refine ⟨⟨?_, ?_, ?_⟩, ?_, ?_, ?_⟩ <;> omega

lemma shift_pool_inv {s : PoolState} (hs : Inv s) :
    Inv (shift_pool s) ∧ (shift_pool s).use = s.use - s.cursor ∧
    (shift_pool s).cursor = 0 ∧ (shift_pool s).size = s.size := by
  obtain ⟨h1, h2, h3⟩ := hs
  have hW : W = 18446744073709551616 := by decide
  have hS : SIZE_MAX = 18446744073709551615 := by decide
  have hu : wsub s.use s.cursor = s.use - s.cursor := wsub_eq h1 (by omega)
  refine ⟨⟨?_, ?_, ?_⟩, ?_, rfl, rfl⟩
  · show (0 : Nat) ≤ wsub s.use s.cursor
    omega
  · show wsub s.use s.cursor ≤ s.size
    omega
  · exact h3
  · exact hu

lemma consumeRead_inv {s : PoolState} (hs : Inv s) (hlt : s.cursor < s.use) :
    Inv (consumeRead s).2 ∧
    (consumeRead s).2.use - (consumeRead s).2.cursor = s.use - (s.cursor + 1) ∧
    (consumeRead s).2.size = s.size := by
  obtain ⟨h1, h2, h3⟩ := hs
  have hs1 : Inv { s with cursor := s.cursor + 1 } := ⟨by show s.cursor + 1 ≤ s.use; omega, h2, h3⟩
  have hcr : (consumeRead s).2 =
      if s.cursor + 1 > s.size / 2
      then shift_pool { s with cursor := s.cursor + 1 }
      else { s with cursor := s.cursor + 1 } := rfl
  by_cases hc : s.cursor + 1 > s.size / 2
  · rw [hcr, if_pos hc]
    obtain ⟨hi, hu, hz, hsz⟩ := shift_pool_inv hs1
    refine ⟨hi, ?_, hsz⟩
    rw [hu, hz]
    show s.use - (s.cursor + 1) - 0 = s.use - (s.cursor + 1)
    omega
  · rw [hcr, if_neg hc]
    exact ⟨hs1, rfl, rfl⟩

/-- One `consume` call preserves the pool invariant and leaves at least
`min_sz - 1` unread bytes, the capacity growing by at most one digest. -/
lemma consume_inv {g : Oracle} {s : PoolState} {b : Nat} {s' : PoolState}
    (hs : Inv s) (h : consume g s = some (b, s')) :
    Inv s' ∧ min_sz - 1 ≤ s'.use - s'.cursor ∧ s'.size ≤ s.size + min_sz := by
  have hW : W = 18446744073709551616 := by decide
  have hS : SIZE_MAX = 18446744073709551615 := by decide
  have hm : min_sz = 32 := rfl
  obtain ⟨h1, h2, h3⟩ := hs
  have hwu : wsub s.use s.cursor = s.use - s.cursor := wsub_eq h1 (by omega)
  unfold consume at h
  split at h
  case isTrue hcond =>
    rw [hwu] at hcond
    cases hr : repool g s with
    | none => rw [hr] at h; cases h
    | some t =>
      rw [hr] at h
      simp only [Option.map_some', Option.some.injEq] at h
      obtain ⟨hit, hut, hct, hzt⟩ := repool_inv ⟨h1, h2, h3⟩ hr
      have hlt : t.cursor < t.use := by omega
      obtain ⟨hi, hd, hz⟩ := consumeRead_inv hit hlt
      rw [h] at hi hd hz
      have hi2 : Inv s' := hi
      have hd2 : s'.use - s'.cursor = t.use - (t.cursor + 1) := hd
      have hz2 : s'.size = t.size := hz
      refine ⟨hi2, ?_, ?_⟩ <;> omega
  case isFalse hcond =>
    rw [hwu] at hcond
    simp only [Option.some.injEq] at h
    have hlt : s.cursor < s.use := by omega
    obtain ⟨hi, hd, hz⟩ := consumeRead_inv ⟨h1, h2, h3⟩ hlt
    rw [h] at hi hd hz
    have hi2 : Inv s' := hi
    have hd2 : s'.use - s'.cursor = s.use - (s.cursor + 1) := hd
    have hz2 : s'.size = s.size := hz
    refine ⟨hi2, ?_, ?_⟩ <;> omega

/-- Running the stream preserves the invariant and the `min_sz - 1`
unread-bytes bound. -/
lemma runN_inv {g : Oracle} (n : Nat) :
    ∀ (s : PoolState) (out : List Nat) (s' : PoolState),
      Inv s → min_sz - 1 ≤ s.use - s.cursor → runN g n s = some (out, s') →
      Inv s' ∧ min_sz - 1 ≤ s'.use - s'.cursor := by
  induction n with
  | zero =>
    intro s out s' hi hd h
    simp only [runN, Option.some.injEq, Prod.mk.injEq] at h
    rw [← h.2]
    exact ⟨hi, hd⟩
  | succ n ih =>
    intro s out s' hi hd h
    rw [show runN g (n + 1) s =
        (consume g s).bind fun bs =>
          (runN g n bs.2).map fun os => (bs.1 :: os.1, os.2) from rfl] at h
    cases hc : consume g s with
    | none => rw [hc] at h; cases h
    | some bs =>
      rw [hc, Option.some_bind] at h
      cases hrn : runN g n bs.2 with
      | none => rw [hrn] at h; cases h
      | some os =>
        rw [hrn] at h
        simp only [Option.map_some', Option.some.injEq, Prod.mk.injEq] at h
        obtain ⟨hi1, hd1, _⟩ := consume_inv hi hc
        obtain ⟨hi2, hd2⟩ := ih bs.2 os.1 os.2 hi1 hd1 hrn
        rw [← h.2]
        exact ⟨hi2, hd2⟩

/-- The number of bytes the loop emits equals the number of iterations. -/
lemma runN_length {g : Oracle} (n : Nat) :
    ∀ (s : PoolState) (out : List Nat) (s' : PoolState),
      runN g n s = some (out, s') → out.length = n := by
  induction n with
  | zero =>
    intro s out s' h
    simp only [runN, Option.some.injEq, Prod.mk.injEq] at h
    rw [← h.1]
    rfl
  | succ n ih =>
    intro s out s' h
    rw [show runN g (n + 1) s =
        (consume g s).bind fun bs =>
          (runN g n bs.2).map fun os => (bs.1 :: os.1, os.2) from rfl] at h
    cases hc : consume g s with
    | none => rw [hc] at h; cases h
    | some bs =>
      rw [hc, Option.some_bind] at h
      cases hrn : runN g n bs.2 with
      | none => rw [hrn] at h; cases h
      | some os =>
        rw [hrn] at h
        simp only [Option.map_some', Option.some.injEq, Prod.mk.injEq] at h
        rw [← h.1, List.length_cons, ih bs.2 os.1 os.2 hrn]

/-- The doubling loop exits at once when its guard is false. -/
lemma growLoop_exit {p fuel inc : Nat} (h : ¬ (inc < p ∧ SIZE_MAX - inc < p)) :
    growLoop p fuel inc = inc := by
  cases fuel with
  | zero => rfl
  | succ f =>
    unfold growLoop
    rw [if_neg h]

/-- The seed history holds at least one digest's worth of bytes. -/
lemma seedHist_len {g : Oracle} (hg : DigestLen g) (seeds : List (List Nat)) :
    min_sz ≤ (seedHist g seeds).length := by
  cases seeds with
  | nil =>
    rw [show seedHist g [] = g [] from rfl, hg]
  | cons a rest =>
    show min_sz ≤ ((a :: rest).map g).flatten.length
    rw [List.map_cons, List.flatten_cons, List.length_append, hg]
    omega

/-- The streaming relation is deterministic: two emitted sequences of
equal length from the same state coincide. -/
lemma emits_det {g : Oracle} {s : PoolState} {out1 : List Nat} (h1 : Emits g s out1) :
    ∀ {out2 : List Nat}, Emits g s out2 → out1.length = out2.length → out1 = out2 := by
  induction h1 with
  | nil s =>
    intro out2 h2 hlen
    exact (List.length_eq_zero.mp hlen.symm).symm
  | cons s b s' out hc he ih =>
    intro out2 h2 hlen
    cases h2 with
    | nil => simp at hlen
    | cons _ b2 s2 out2' hc2 he2 =>
      rw [hc] at hc2
      simp only [Option.some.injEq, Prod.mk.injEq] at hc2
      obtain ⟨hb, hs⟩ := hc2
      subst hb
      subst hs
      rw [ih he2 (by simpa using hlen)]

/-- Seed ingestion depends on the seed strings only through their
digests. -/
lemma seedAll_digest_congr {g : Oracle} :
    ∀ (l1 l2 : List (List Nat)), l1.map g = l2.map g →
      ∀ s, seedAll g s l1 = seedAll g s l2 := by
  intro l1
  induction l1 with
  | nil =>
    intro l2 h s
    cases l2 with
    | nil => rfl
    | cons b t2 => simp at h
  | cons a t1 ih =>
    intro l2 h s
    cases l2 with
    | nil => simp at h
    | cons b t2 =>
      simp only [List.map_cons, List.cons.injEq] at h
      obtain ⟨hab, ht⟩ := h
      show (pool_str g s a).bind (fun t => seedAll g t t1)
          = (pool_str g s b).bind (fun t => seedAll g t t2)
      have hps : pool_str g s a = pool_str g s b := by
        unfold pool_str
        rw [hab]
      rw [hps]
      cases pool_str g s b with
      | none => rfl
      | some u =>
        rw [Option.some_bind, Option.some_bind, ih t2 ht u]

/-! ## Claim theorems -/

/-- C1: for every fixed list of seed strings and every fixed
deterministic digest oracle, two runs of the generator each producing
`N` bytes (`N` calls of `consume`) emit identical `N`-byte sequences. -/
theorem claim1_determinism {g : Oracle} {seeds : List (List Nat)} {sSeed : PoolState}
    {out1 out2 : List Nat} {N : Nat}
    ( _hseed : seedState g seeds = some sSeed)
    (h1 : Emits g sSeed out1) (h2 : Emits g sSeed out2)
    (hN1 : out1.length = N) (hN2 : out2.length = N) : out1 = out2 :=
  emits_det h1 h2 (hN1.trans hN2.symm)

/-- Witness for C1: the oracle `g0`, no seeds, `N = 1`. -/
theorem claim1_witness : [(0 : Nat)] = [0] :=
  @claim1_determinism g0 [] s0 [0] [0] 1 rfl
    (Emits.cons s0 0 { s0 with cursor := 1 } [] rfl (Emits.nil _))
    (Emits.cons s0 0 { s0 with cursor := 1 } [] rfl (Emits.nil _)) rfl rfl

/-- C7: the invariant `0 ≤ cursor ≤ used ≤ capacity` on the pool marks
holds in the initial state (all zero) and is preserved by every
operation: `prepare_pool`, `pool_str`, `repool`, `shift_pool` and
`consume`. -/
theorem claim7_invariant :
    Inv initState ∧
    (∀ s t, Inv s → prepare_pool s = some t → Inv t) ∧
    (∀ (g : Oracle) (s : PoolState) (arg : List Nat) (t : PoolState),
      Inv s → pool_str g s arg = some t → Inv t) ∧
    (∀ (g : Oracle) (s t : PoolState), Inv s → repool g s = some t → Inv t) ∧
    (∀ s, Inv s → Inv (shift_pool s)) ∧
    (∀ (g : Oracle) (s : PoolState) (b : Nat) (t : PoolState),
      Inv s → consume g s = some (b, t) → Inv t) := by
  refine ⟨initState_ghost.2.2, ?_, ?_, ?_, ?_, ?_⟩
  · intro s t hs h
    exact (prepare_pool_spec hs h).2.2.2.2.2
  · intro g s arg t hs h
    exact (pool_str_inv hs h).1
  · intro g s t hs h
    exact (repool_inv hs h).1
  · intro s hs
    exact (shift_pool_inv hs).1
  · intro g s b t hs h
    exact (consume_inv hs h).1

/-- Witness for C7: the compaction clause applied to the concrete state
`s0`. -/
theorem claim7_witness : Inv (shift_pool s0) :=
  claim7_invariant.2.2.2.2.1 s0 ⟨by decide, by decide, by decide⟩

/-- C3 counterexample: the very first growth, from capacity `0`, takes
the capacity to `min_sz = 32` — an increase of `32` bytes, not of at
least `min_sz * min_sz = 1024` as claimed. -/
theorem claim3_counterexample :
    ((prepare_pool initState).map PoolState.size).getD 0 = min_sz ∧
    ¬ min_sz * min_sz ≤
      ((prepare_pool initState).map PoolState.size).getD 0 - initState.size := by
  constructor
  · decide
  · decide

/-- C3 (amended): when `prepare_pool` finds unread room of at most one
digest and its overflow guard passes, it computes the increment of the
claimed doubling policy (`min_sz * min_sz` on the first growth, `min_sz`
afterwards; the doubling loop body never runs) but never uses it: the
capacity grows by exactly `min_sz` bytes, never exceeding `SIZE_MAX`. -/
theorem claim3_growth {s : PoolState} (hroom : ¬ min_sz < wsub s.size s.use)
    (hof : ¬ s.size > SIZE_MAX - min_sz) :
    prepare_pool s = some { s with size := s.size + min_sz } ∧
    s.size + min_sz ≤ SIZE_MAX ∧
    growth_increment s.size = if s.size = 0 then min_sz * min_sz else min_sz := by
  have hm : min_sz = 32 := rfl
  have hS : SIZE_MAX = 18446744073709551615 := by decide
  have hW : W = 18446744073709551616 := by decide
  have hle : s.size + min_sz ≤ SIZE_MAX := by omega
  refine ⟨?_, hle, ?_⟩
  · unfold prepare_pool
    rw [if_neg hroom, if_neg hof]
    show some { s with size := (s.size + min_sz) % W } = _
    rw [Nat.mod_eq_of_lt (by omega)]
  · by_cases hz : s.size = 0
    · rw [if_pos hz, hz]
      decide
    · rw [if_neg hz]
      unfold growth_increment
      rw [if_pos hz]
      exact growLoop_exit (by omega)

/-- Witness for C3: the amended growth description at the initial
state. -/
theorem claim3_witness :
    prepare_pool initState = some { initState with size := initState.size + min_sz } ∧
    initState.size + min_sz ≤ SIZE_MAX ∧
    growth_increment initState.size =
      if initState.size = 0 then min_sz * min_sz else min_sz :=
  claim3_growth (by decide) (by decide)

/-- C8: when `prepare_pool` needs to grow and returns successfully, the
size computed for the reallocation — `pool_size + min_sz` in `size_t`
arithmetic — did not wrap around `SIZE_MAX`: the overflow guard runs
first, so the modular sum equals the exact sum and the new capacity is
still representable. -/
theorem claim8_no_wrap {s t : PoolState} (hroom : ¬ min_sz < wsub s.size s.use)
    (h : prepare_pool s = some t) :
    (s.size + min_sz) % W = s.size + min_sz ∧
    t.size = s.size + min_sz ∧ t.size ≤ SIZE_MAX := by
  have hm : min_sz = 32 := rfl
  have hS : SIZE_MAX = 18446744073709551615 := by decide
  have hW : W = 18446744073709551616 := by decide
  unfold prepare_pool at h
  rw [if_neg hroom] at h
  split at h
  · cases h
  case isFalse hof =>
    replace h : some { s with size := (s.size + min_sz) % W } = some t := h
    have ht := Option.some.inj h
    have hmod : (s.size + min_sz) % W = s.size + min_sz := Nat.mod_eq_of_lt (by omega)
    refine ⟨hmod, ?_, ?_⟩
    · rw [← ht]
      exact hmod
    · rw [← ht]
      show (s.size + min_sz) % W ≤ SIZE_MAX
      rw [hmod]
      omega

/-- Witness for C8: the growth from the initial state. -/
theorem claim8_witness :
    (initState.size + min_sz) % W = initState.size + min_sz ∧
    ({ initState with size := min_sz } : PoolState).size = initState.size + min_sz ∧
    ({ initState with size := min_sz } : PoolState).size ≤ SIZE_MAX :=
  claim8_no_wrap (by decide) rfl

/-- C4 counterexample: in a seedless run under `g0`, after one emitted
byte the state has `used = 32`, `cursor = 1` — i.e. `31 ≥ 1` unread
bytes — yet the second `consume` call still performs a Hash-Chain
Extension: the high-water mark grows by a full digest, to `64`.  This
contradicts the claim that extension happens only when `used - cursor <
1`. -/
theorem claim4_counterexample :
    (stateAfter g0 [] 1).map (fun s => (s.use, s.cursor)) = some (min_sz, 1) ∧
    (stateAfter g0 [] 2).map PoolState.use = some (2 * min_sz) := by
  constructor
  · decide
  · decide

/-- C4 (amended): a `consume` call performs a Hash-Chain Extension
before the read iff fewer than `min_sz` unread bytes remain at entry
(`used - cursor < min_sz`), not iff the unread region is empty: with at
least `min_sz` unread bytes the byte is emitted with the append history
unchanged, and with fewer unread bytes the history grows by the digest
of the current pool contents before the read. -/
theorem claim4_extension_iff {g : Oracle} {s : PoolState} {hist : List Nat} {off : Nat}
    (hg : DigestLen g) (hG : GInv s hist off) :
    (min_sz ≤ wsub s.use s.cursor →
      ∃ b s' off2, consume g s = some (b, s') ∧ GInv s' hist off2) ∧
    (wsub s.use s.cursor < min_sz →
      ∀ b s', consume g s = some (b, s') →
        ∃ off2, GInv s' (hist ++ g (hist.drop off)) off2) := by
  obtain ⟨hmem, hl, h1, h2, h3⟩ := hG
  have hW : W = 18446744073709551616 := by decide
  have hS : SIZE_MAX = 18446744073709551615 := by decide
  have hm : min_sz = 32 := rfl
  have hwu : wsub s.use s.cursor = s.use - s.cursor := wsub_eq h1 (by omega)
  constructor
  · intro hge
    rw [hwu] at hge
    have hlt : s.cursor < s.use := by omega
    obtain ⟨hb, off2, hG2, hoff, hsz⟩ := consumeRead_ghost ⟨hmem, hl, h1, h2, h3⟩ hlt
    refine ⟨(consumeRead s).1, (consumeRead s).2, off2, ?_, hG2⟩
    unfold consume
    rw [if_neg (by rw [hwu]; omega)]
  · intro hltc b s' h
    unfold consume at h
    rw [if_pos hltc] at h
    cases hr : repool g s with
    | none => rw [hr] at h; cases h
    | some t =>
      rw [hr] at h
      simp only [Option.map_some', Option.some.injEq] at h
      obtain ⟨hGt, hcur, huse, _⟩ := repool_ghost hg ⟨hmem, hl, h1, h2, h3⟩ hr
      have hlt : t.cursor < t.use := by omega
      obtain ⟨hb, off2, hG2, hoff, hsz⟩ := consumeRead_ghost hGt hlt
      have hs2 : (consumeRead t).2 = s' := by rw [h]
      refine ⟨off2, ?_⟩
      rw [← hs2]
      exact hG2

/-- Witness for C4: the freshly seeded state `s0` under `g0` has a full
digest unread, so the no-extension branch applies. -/
theorem claim4_witness :
    ∃ b s' off2, consume g0 s0 = some (b, s') ∧
      GInv s' (List.replicate min_sz 0) off2 :=
  (@claim4_extension_iff g0 s0 (List.replicate min_sz 0) 0 (fun _ => rfl)
    ⟨by decide, by decide, by decide, by decide, by decide⟩).1 (by decide)

/-- C10: in every reachable state (after seeding and any number of
emitted bytes) at least `min_sz - 1` unread bytes remain, and each byte
emission reads strictly below the high-water mark: with at least
`min_sz` unread bytes the read position `cursor` is below `used`
directly, and otherwise the `repool` performed first restores at least
`min_sz` unread bytes, so the read again stays inside `[0, used)`. -/
theorem claim10_read_safety {g : Oracle} {seeds : List (List Nat)} {n : Nat}
    {s : PoolState} (hg : DigestLen g) (h : stateAfter g seeds n = some s) :
    (min_sz - 1 ≤ s.use - s.cursor) ∧
    (min_sz ≤ s.use - s.cursor → s.cursor < s.use) ∧
    (∀ t, repool g s = some t → min_sz ≤ t.use - t.cursor ∧ t.cursor < t.use) := by
  unfold stateAfter at h
  cases hs0 : seedState g seeds with
  | none => rw [hs0] at h; cases h
  | some sSeed =>
    rw [hs0, Option.some_bind] at h
    cases hr : runN g n sSeed with
    | none => rw [hr] at h; cases h
    | some os =>
      rw [hr] at h
      simp only [Option.map_some', Option.some.injEq] at h
      obtain ⟨hG, hcur⟩ := seedState_ghost hg hs0
      have hInv : Inv sSeed := hG.2.2
      have hlen := hG.2.1
      have hmin := seedHist_len hg seeds
      have huse : min_sz ≤ sSeed.use := by omega
      have hd0 : min_sz - 1 ≤ sSeed.use - sSeed.cursor := by
        rw [hcur]
        omega
      obtain ⟨hi, hd⟩ := runN_inv n sSeed os.1 os.2 hInv hd0 hr
      have hs' : os.2 = s := h
      rw [hs'] at hi hd
      obtain ⟨k1, k2, k3⟩ := hi
      have hm : min_sz = 32 := rfl
      refine ⟨hd, ?_, ?_⟩
      · intro hge
        omega
      · intro t ht
        obtain ⟨⟨t1, t2, t3⟩, tu, tc, _⟩ := repool_inv ⟨k1, k2, k3⟩ ht
        constructor <;> omega

/-- Witness for C10: the seeded state of a seedless run under `g0`. -/
theorem claim10_witness : min_sz - 1 ≤ s0.use - s0.cursor :=
  (@claim10_read_safety g0 [] 0 s0 (fun _ => rfl) rfl).1

set_option maxRecDepth 100000 in
/-- C2 counterexample: under the concrete oracle `gcx` a seedless run
of 65 bytes differs from the reference generator with a pool pre-sized
larger than ever needed and never compacting: after the run's first
compaction the next `repool` digests only the retained suffix of the
pool, while the reference digests its whole pool, and the streams
diverge at the 65th byte. -/
theorem claim2_counterexample :
    outBytes gcx [] 65 ≠ some (refBytes gcx [] 65) := by
  decide

/-- C2 (amended): compaction and growth never cause a previously unread
byte to be skipped or a previously read byte to be re-emitted: the `n`
emitted bytes are exactly the first `n` bytes, in increasing position
order and each position exactly once, of the history of bytes appended
to the pool.  (The stream is however not identical to that of the
never-compacting pre-sized reference generator — see the
counterexample — because after a compaction `repool` digests only the
retained suffix of the pool.) -/
theorem claim2_no_skip_no_reemit {g : Oracle} {seeds : List (List Nat)}
    {sSeed : PoolState} {n : Nat} {out : List Nat} {sFin : PoolState}
    (hg : DigestLen g) (hseed : seedState g seeds = some sSeed)
    (hrun : runN g n sSeed = some (out, sFin)) :
    ∃ hist, (∃ e, hist = seedHist g seeds ++ e) ∧
      out = (List.range n).map (fun k => hist.getD k 0) := by
  obtain ⟨hG, hcur⟩ := seedState_ghost hg hseed
  obtain ⟨hist2, off2, he, hG2, hoff, hout⟩ :=
    runN_ghost hg n sSeed (seedHist g seeds) 0 out sFin hG hrun
  refine ⟨hist2, he, ?_⟩
  rw [hout]
  apply List.map_congr_left
  intro a ha
  congr 1
  omega

/-- Witness for C2's amended theorem: one byte of a seedless `g0` run. -/
theorem claim2_witness :
    ∃ hist, (∃ e, hist = seedHist g0 [] ++ e) ∧
      [0] = (List.range 1).map (fun k => hist.getD k 0) :=
  @claim2_no_skip_no_reemit g0 [] s0 1 [0] { s0 with cursor := 1 }
    (fun _ => rfl) rfl rfl

/-- C5: with zero seed strings the seeding phase is exactly one
unconditional Hash-Chain Extension (`repool` on the empty pool), and
the stream is well defined and non-empty: the run of the first `min_sz`
bytes completes and returns exactly the digest of the empty byte
sequence, from which the hash chain continues. -/
theorem claim5_empty_seed {g : Oracle} (hg : DigestLen g) :
    seedState g [] = repool g initState ∧
    ∃ sSeed out sFin, seedState g [] = some sSeed ∧
      runN g min_sz sSeed = some (out, sFin) ∧ out = g [] := by
  have hm : min_sz = 32 := rfl
  have hS : SIZE_MAX = 18446744073709551615 := by decide
  refine ⟨rfl, ?_⟩
  obtain ⟨sd, hseed⟩ : ∃ sd, seedState g [] = some sd := ⟨_, rfl⟩
  have hrep : repool g initState = some sd := hseed
  have hinit : Inv initState := initState_ghost.2.2
  obtain ⟨hinv0, hu0, hc0, hz0⟩ := repool_inv hinit hrep
  have hi0 : initState.size = 0 := rfl
  obtain ⟨hG, hcur⟩ := seedState_ghost hg hseed
  obtain ⟨out, sFin, hr⟩ := runN_isSome hg min_sz sd (seedHist g []) 0 hG
    (by rw [hm]; omega)
  refine ⟨sd, out, sFin, hseed, hr, ?_⟩
  obtain ⟨hist2, off2, ⟨e, he⟩, hG2, hoff, hout⟩ :=
    runN_ghost hg min_sz sd (seedHist g []) 0 out sFin hG hr
  rw [hout]
  have h1 : ∀ a ∈ List.range min_sz,
      hist2.getD (0 + sd.cursor + a) 0 = (g []).getD a 0 := by
    intro a ha
    have hk := List.mem_range.mp ha
    have hpos : 0 + sd.cursor + a = a := by omega
    rw [hpos, he]
    have hlt : a < (seedHist g []).length := by
      show a < (g []).length
      rw [hg []]
      exact hk
    exact List.getD_append _ _ _ _ hlt
  rw [List.map_congr_left h1, range_map_getD (hg [])]

/-- Witness for C5: the empty-seed description at the oracle `g0`. -/
theorem claim5_witness : seedState g0 [] = repool g0 initState :=
  (@claim5_empty_seed g0 (fun _ => rfl)).1

/-- C6: whenever the streaming loop configured with byte limit `K`
completes (no abort), it has emitted exactly `K` bytes and stopped (the
loop body runs exactly `K` times); in particular `K = 0` emits nothing,
unconditionally. -/
theorem claim6_limit (g : Oracle) (seeds : List (List Nat)) (K : Nat) :
    (∀ out, outBytes g seeds K = some out → out.length = K) ∧
    (∀ s, runN g 0 s = some ([], s)) := by
  constructor
  · intro out h
    unfold outBytes at h
    cases hs0 : seedState g seeds with
    | none => rw [hs0] at h; cases h
    | some sd =>
      rw [hs0, Option.some_bind] at h
      cases hr : runN g K sd with
      | none => rw [hr] at h; cases h
      | some os =>
        rw [hr] at h
        simp only [Option.map_some', Option.some.injEq] at h
        rw [← h]
        exact runN_length K sd os.1 os.2 (by rw [hr])
  · intro s
    rfl

/-- Witness for C6: a completed 2-byte run under `g0`. -/
theorem claim6_witness : ([0, 0] : List Nat).length = 2 :=
  (claim6_limit g0 [] 2).1 [0, 0] rfl

/-- C9: the output stream depends on the seed strings only through
their digests: two seed lists whose elementwise digests under the
oracle are equal yield identical streams — no seed byte ever enters the
pool directly, only digest output does. -/
theorem claim9_digest_dependence {g : Oracle} {seeds1 seeds2 : List (List Nat)}
    (h : seeds1.map g = seeds2.map g) (n : Nat) :
    outBytes g seeds1 n = outBytes g seeds2 n := by
  have hs : seedState g seeds1 = seedState g seeds2 := by
    cases seeds1 with
    | nil =>
      cases seeds2 with
      | nil => rfl
      | cons b t2 => simp at h
    | cons a t1 =>
      cases seeds2 with
      | nil => simp at h
      | cons b t2 =>
        show seedAll g initState (a :: t1) = seedAll g initState (b :: t2)
        exact seedAll_digest_congr (a :: t1) (b :: t2) h initState
  unfold outBytes
  rw [hs]

/-- Witness for C9: the distinct seed strings `[1]` and `[2]` have equal
digests under the constant oracle `g0`, and the streams coincide. -/
theorem claim9_witness : outBytes g0 [[1]] 1 = outBytes g0 [[2]] 1 :=
  @claim9_digest_dependence g0 [[1]] [[2]] rfl 1

end Sha256Rng
